import Mathlib

/-!
Verification of the matrix-chain-order playground.

The development shallowly embeds the C++ sources: the `Matrix` cost-model
value (rows, cols, accumulated flops) with its checked `add` / `mul`
combinators, and the chain-order optimizer `calc_optimal_mult_order` with
its two DP tables (`min_cost`, `min_index`), the expression renderer
`order_to_string`, and the surrounding argument checks.  C++ exceptions
and failed assertions are modelled with `Except String`; the tables are
modelled as functions `Nat → Nat → _` updated pointwise, and the three
nested loops as left folds over the same index ranges the C++ code
iterates over.  `int` arithmetic is modelled by `Int` (the interesting
theorems carry explicit bounds against `intMax`, the value
`std::numeric_limits<int>::max()` that the DP uses as its infinity).
-/

namespace MatrixChain

/-- The `Matrix` value class: a shape together with the cumulative flop
count charged to produce it (no numeric contents are modelled, exactly as
in the source). -/
structure Matrix where
  nrow : Int
  ncol : Int
  flops : Int
deriving DecidableEq, Repr

/-- The public two-argument constructor `Matrix(nrow, ncol)`, which
delegates to the private constructor with `flops = 0`. -/
def Matrix.construct (nrow ncol : Int) : Matrix := ⟨nrow, ncol, 0⟩

/-- `calc_mat_add_flops`: elementwise addition charges one flop per cell,
written in the source as `A.get_nrow() * B.get_ncol()`. -/
def calc_mat_add_flops (A B : Matrix) : Int := A.nrow * B.ncol

/-- `calc_mat_mult_flops`: `A.get_nrow() * A.get_ncol() * (2 * B.get_ncol() - 1)`. -/
def calc_mat_mult_flops (A B : Matrix) : Int := A.nrow * A.ncol * (2 * B.ncol - 1)

/-- `diff_dims_error`: the diagnostic string carrying both operand shapes. -/
def diff_dims_error (A B : Matrix) : String :=
  "A: " ++ toString A.nrow ++ "x" ++ toString A.ncol ++
    ", B: " ++ toString B.nrow ++ "x" ++ toString B.ncol

/-- `Matrix::operator+`: requires equal shapes, accumulates both operands'
flops plus the addition cost; a thrown `std::logic_error` is modelled as
`Except.error` carrying the exception message. -/
def Matrix.add (A B : Matrix) : Except String Matrix :=
  if A.nrow ≠ B.nrow ∨ A.ncol ≠ B.ncol then
    .error ("add: dimensions do not match: " ++ diff_dims_error A B)
  else
    .ok ⟨A.nrow, A.ncol, A.flops + B.flops + calc_mat_add_flops A B⟩

/-- `Matrix::operator*`: requires matching inner dimensions, result shape
`(A.nrow, B.ncol)`, accumulated flops plus the multiplication cost. -/
def Matrix.mul (A B : Matrix) : Except String Matrix :=
  if A.ncol ≠ B.nrow then
    .error ("mult: dimensions do not match: " ++ diff_dims_error A B)
  else
    .ok ⟨A.nrow, B.ncol, A.flops + B.flops + calc_mat_mult_flops A B⟩

/-- `std::numeric_limits<int>::max()`, the initial "infinity" of every
`min_cost[i][j]` cell. -/
def intMax : Int := 2147483647

/-- `get_mat`: `*(mats.begin() + i)` (lookups in the optimizer are always
in range; the default is irrelevant there). -/
def matAt (mats : List Matrix) (i : Nat) : Matrix := mats.getD i ⟨0, 0, 0⟩

/-- The split weight read off inside the DP inner loop:
`get_mat(i).get_nrow() * get_mat(k).get_ncol() * (2 * get_mat(j).get_ncol() - 1)`. -/
def splitFlops (mats : List Matrix) (i k j : Nat) : Int :=
  (matAt mats i).nrow * (matAt mats k).ncol * (2 * (matAt mats j).ncol - 1)

/-- The pair of `n × n` DP tables (`std::vector<std::vector<int>>`),
modelled as total functions; `std::vector` value-initializes to `0`. -/
structure Tables where
  min_cost : Nat → Nat → Int
  min_index : Nat → Nat → Nat

/-- Pointwise update of a two-index table cell. -/
def upd2 {α : Type} (f : Nat → Nat → α) (i j : Nat) (v : α) : Nat → Nat → α :=
  fun a b => if a = i ∧ b = j then v else f a b

/-- Freshly constructed zero-filled tables. -/
def initTables : Tables := ⟨fun _ _ => 0, fun _ _ => 0⟩

/-- One iteration of the innermost `k` loop: compute the candidate cost of
splitting `[i, j]` at `k`, and record it (together with `k`) when it is
strictly below the current `min_cost[i][j]`. -/
def kStep (mats : List Matrix) (i j : Nat) (t : Tables) (k : Nat) : Tables :=
  let cost := t.min_cost i k + t.min_cost (k + 1) j + splitFlops mats i k j
  if cost < t.min_cost i j then
    ⟨upd2 t.min_cost i j cost, upd2 t.min_index i j k⟩
  else t

/-- One iteration of the middle `i` loop: for the window `[i, j]` with
`j = i + length - 1`, reset `min_cost[i][j]` to `INT_MAX` and run the `k`
loop over `k = i, …, j - 1`. -/
def ijStep (mats : List Matrix) (L : Nat) (t : Tables) (i : Nat) : Tables :=
  let j := i + L - 1
  let t1 : Tables := ⟨upd2 t.min_cost i j intMax, t.min_index⟩
  (List.range' i (j - i)).foldl (kStep mats i j) t1

/-- One iteration of the outer `length` loop: all windows of size `L`,
left endpoints `i = 0, …, n - L`. -/
def lenStep (mats : List Matrix) (t : Tables) (L : Nat) : Tables :=
  (List.range (mats.length - L + 1)).foldl (ijStep mats L) t

/-- The full table-filling phase of `calc_optimal_mult_order`: lengths
`2, …, n` over the zero-initialized tables. -/
def runDP (mats : List Matrix) : Tables :=
  (List.range' 2 (mats.length - 1)).foldl (lenStep mats) initTables

/-- `order_to_string`: render the optimal parenthesization of `[i, j]`
from the `min_index` table; a leaf is the supplied name, or `"M" + (i+1)`
when no names were given.  The C++ recursion is on strictly shrinking
windows; the extra `fuel` argument (always called with `fuel ≥ j - i + 1`,
so the base row is never reached on the tables the optimizer builds)
makes that recursion structural. -/
def order_to_string (min_index : Nat → Nat → Nat) (mat_names : List String) :
    Nat → Nat → Nat → String
  | 0, i, _ =>
    if mat_names.length ≠ 0 then mat_names.getD i "" else "M" ++ toString (i + 1)
  | fuel + 1, i, j =>
    if i = j then
      if mat_names.length ≠ 0 then mat_names.getD i "" else "M" ++ toString (i + 1)
    else
      "(" ++ order_to_string min_index mat_names fuel i (min_index i j) ++ " * " ++
        order_to_string min_index mat_names fuel (min_index i j + 1) j ++ ")"

/-- The adjacent-pair walk of `for_each_adjacent_pair` specialized to the
compatibility assertion `assert(m1.get_ncol() == m2.get_nrow())`: true iff
every adjacent pair passes (vacuously true below two elements). -/
def adjacentPairsOk : List Matrix → Bool
  | m1 :: m2 :: rest => (m1.ncol == m2.nrow) && adjacentPairsOk (m2 :: rest)
  | _ => true

/-- Adjacent-shape compatibility of a chain. -/
def Compat (mats : List Matrix) : Prop := adjacentPairsOk mats = true

instance (mats : List Matrix) : Decidable (Compat mats) :=
  inferInstanceAs (Decidable (adjacentPairsOk mats = true))

/-- `calc_optimal_mult_order`: validate the name count (throwing
`"wrong input sizes"`), return `("", 0)` on an empty chain, assert
adjacent compatibility, then fill the DP tables and extract
`(order_to_string(min_index, 0, n-1, names), min_cost[0][n-1])`. -/
def calc_optimal_mult_order (mats : List Matrix) (mat_names : List String) :
    Except String (String × Int) :=
  if mat_names.length ≠ 0 ∧ mat_names.length ≠ mats.length then
    .error "wrong input sizes"
  else if mats.length = 0 then
    .ok ("", 0)
  else if ¬ Compat mats then
    .error "assertion failed: m1.get_ncol() == m2.get_nrow()"
  else
    let n := mats.length
    let t := runDP mats
    .ok (order_to_string t.min_index mat_names n 0 (n - 1), t.min_cost 0 (n - 1))

/-! ## Parenthesizations

A full parenthesization of the sub-chain `[i, j]` is a binary tree whose
leaves are the positions `i, …, j` in order.  `allTrees i j` enumerates
them; `treeFlops` is the total multiplication flop count of a grouping,
each node charging `rows(lo) * cols(split) * (2 * cols(hi) - 1)` exactly
as in the cost model (`evalTree` below ties this to `Matrix.mul`). -/

inductive PTree where
  | leaf : Nat → PTree
  | node : PTree → PTree → PTree
deriving DecidableEq, Repr

/-- Leftmost leaf position of a parenthesization tree. -/
def PTree.lo : PTree → Nat
  | .leaf i => i
  | .node l _ => l.lo

/-- Rightmost leaf position of a parenthesization tree. -/
def PTree.hi : PTree → Nat
  | .leaf i => i
  | .node _ r => r.hi

/-- Total multiplication flops of a parenthesization: each internal node
multiplies a `(rows lo, cols k)` result with a `(cols k, cols hi)` result
at cost `rows(lo) * cols(k) * (2 * cols(hi) - 1)`. -/
def treeFlops (mats : List Matrix) : PTree → Int
  | .leaf _ => 0
  | .node l r => treeFlops mats l + treeFlops mats r + splitFlops mats l.lo l.hi r.hi

/-- All parenthesization trees over `[i, j]`, split at every `k ∈ [i, j)`;
the fuel argument `d` (which only needs to be `≥ j - i`) makes the
recursion structural. -/
def allTreesF : Nat → Nat → Nat → List PTree
  | 0, i, _ => [PTree.leaf i]
  | d + 1, i, j =>
    if j ≤ i then [PTree.leaf i]
    else
      (List.range' i (j - i)).flatMap fun k =>
        (allTreesF d i k).flatMap fun l =>
          (allTreesF d (k + 1) j).map fun r => PTree.node l r

/-- All full parenthesizations of the sub-chain `[i, j]`. -/
def allTrees (i j : Nat) : List PTree := allTreesF (j - i) i j

/-- Evaluate a parenthesization bottom-up with `Matrix.mul`, starting from
freshly constructed matrices (flop counter `0`) of the chain's shapes. -/
def evalTree (mats : List Matrix) : PTree → Except String Matrix
  | .leaf i => .ok ⟨(matAt mats i).nrow, (matAt mats i).ncol, 0⟩
  | .node l r => do
      let a ← evalTree mats l
      let b ← evalTree mats r
      a.mul b

/-- The parenthesization recorded in the `min_index` table for the window
`[i, j]` (the tree that `order_to_string` renders), with the same fuel
discipline as `order_to_string`. -/
def splitTree (min_index : Nat → Nat → Nat) : Nat → Nat → Nat → PTree
  | 0, i, _ => .leaf i
  | fuel + 1, i, j =>
    if i = j then .leaf i
    else
      .node (splitTree min_index fuel i (min_index i j))
        (splitTree min_index fuel (min_index i j + 1) j)

/-- Render a parenthesization tree the way `order_to_string` prints one:
names (or `"M" + (i+1)"`) at the leaves, `" * "` between the children of
every node, wrapped in parentheses. -/
def renderTree (mat_names : List String) : PTree → String
  | .leaf i => if mat_names.length ≠ 0 then mat_names.getD i "" else "M" ++ toString (i + 1)
  | .node l r => "(" ++ renderTree mat_names l ++ " * " ++ renderTree mat_names r ++ ")"

deriving instance DecidableEq for Except

/-- The four-matrix chain `A(40,20), B(20,30), C(30,10), D(10,30)` of the
demo and the run-time checks. -/
def chainABCD : List Matrix := [⟨40, 20, 0⟩, ⟨20, 30, 0⟩, ⟨30, 10, 0⟩, ⟨10, 30, 0⟩]

/-! ## Claims about the cost model -/

/-- C4: for every two matrices `a` and `b`, `Multiply(a, b)` succeeds
exactly when `a.cols == b.rows`, and then returns a value of shape
`(a.rows, b.cols)` with cost `a.cost + b.cost + a.rows * a.cols *
(2 * b.cols - 1)`, failing with the dimension-mismatch error otherwise;
in particular `A(2,5) * B(5,10)` has cost `190` and shape `(2,10)`. -/
theorem mul_spec (a b : Matrix) :
    (a.ncol = b.nrow →
      Matrix.mul a b = .ok ⟨a.nrow, b.ncol, a.flops + b.flops + a.nrow * a.ncol * (2 * b.ncol - 1)⟩)
    ∧ (a.ncol ≠ b.nrow →
      Matrix.mul a b = .error ("mult: dimensions do not match: " ++ diff_dims_error a b))
    ∧ Matrix.mul ⟨2, 5, 0⟩ ⟨5, 10, 0⟩ = .ok ⟨2, 10, 190⟩ := by
  refine ⟨?_, ?_, by decide⟩ <;> intro h <;> simp [Matrix.mul, calc_mat_mult_flops, h]

/-- Witness for C4 at `A(2,5) * B(5,10)` (success) and `A(2,5) * B(4,10)`
(dimension mismatch). -/
theorem mul_spec_witness :
    Matrix.mul ⟨2, 5, 0⟩ ⟨5, 10, 0⟩ = .ok ⟨2, 10, 0 + 0 + 2 * 5 * (2 * 10 - 1)⟩
    ∧ Matrix.mul ⟨2, 5, 0⟩ ⟨4, 10, 0⟩ =
        .error ("mult: dimensions do not match: " ++ diff_dims_error ⟨2, 5, 0⟩ ⟨4, 10, 0⟩) :=
  ⟨(mul_spec ⟨2, 5, 0⟩ ⟨5, 10, 0⟩).1 (by decide), (mul_spec ⟨2, 5, 0⟩ ⟨4, 10, 0⟩).2.1 (by decide)⟩

/-- C5: for every two matrices `a` and `b`, `Add(a, b)` succeeds exactly
when the shapes coincide, and then returns a value of the same shape with
cost `a.cost + b.cost + rows * cols`, failing with the dimension-mismatch
error otherwise; in particular `A(2,10) + B(2,10)` has cost `20` and shape
`(2,10)`. -/
theorem add_spec (a b : Matrix) :
    (a.nrow = b.nrow → a.ncol = b.ncol →
      Matrix.add a b = .ok ⟨a.nrow, a.ncol, a.flops + b.flops + a.nrow * a.ncol⟩)
    ∧ (a.nrow ≠ b.nrow ∨ a.ncol ≠ b.ncol →
      Matrix.add a b = .error ("add: dimensions do not match: " ++ diff_dims_error a b))
    ∧ Matrix.add ⟨2, 10, 0⟩ ⟨2, 10, 0⟩ = .ok ⟨2, 10, 20⟩ := by
  refine ⟨?_, ?_, by decide⟩
  · intro h1 h2
    simp [Matrix.add, calc_mat_add_flops, h1, h2]
  · intro h
    simp [Matrix.add, calc_mat_add_flops, h]

/-- Witness for C5 at `A(2,10) + B(2,10)` (success) and
`A(2,10) + B(3,10)` (dimension mismatch). -/
theorem add_spec_witness :
    Matrix.add ⟨2, 10, 0⟩ ⟨2, 10, 0⟩ = .ok ⟨2, 10, 0 + 0 + 2 * 10⟩
    ∧ Matrix.add ⟨2, 10, 0⟩ ⟨3, 10, 0⟩ =
        .error ("add: dimensions do not match: " ++ diff_dims_error ⟨2, 10, 0⟩ ⟨3, 10, 0⟩) :=
  ⟨(add_spec ⟨2, 10, 0⟩ ⟨2, 10, 0⟩).1 (by decide) (by decide),
    (add_spec ⟨2, 10, 0⟩ ⟨3, 10, 0⟩).2.1 (by decide)⟩

/-- C7 (counterexample): the claim "for matrices with non-negative rows
and cols, a successful combining operation never decreases the cost" is
false: `(1,1)` times `(1,0)` succeeds and has cost `-1`, below the
operand cost `0`, because the multiply term `1 * 1 * (2 * 0 - 1)` is
negative when the right operand has zero columns. -/
theorem cost_monotone_cex :
    ¬ (∀ a b m : Matrix, 0 ≤ a.nrow → 0 ≤ a.ncol → 0 ≤ b.nrow → 0 ≤ b.ncol →
        (Matrix.add a b = .ok m → a.flops ≤ m.flops ∧ b.flops ≤ m.flops)
        ∧ (Matrix.mul a b = .ok m → a.flops ≤ m.flops ∧ b.flops ≤ m.flops)) := by
  intro h
  have h1 := (h ⟨1, 1, 0⟩ ⟨1, 0, 0⟩ ⟨1, 0, -1⟩ (by decide) (by decide) (by decide) (by decide)).2
  have h2 := h1 (by decide)
  exact absurd h2.1 (by decide)

/-- C7 (amended): for matrices with non-negative rows, cols and costs, a
successful `Add` never decreases the cost, and a successful `Multiply`
never decreases the cost provided the right operand has at least one
column (with zero columns the multiply term `rows * cols * (2*0 - 1)` is
negative). -/
theorem cost_monotone_amended (a b m : Matrix)
    (ha1 : 0 ≤ a.nrow) (ha2 : 0 ≤ a.ncol) (hb2 : 0 ≤ b.ncol)
    (ha3 : 0 ≤ a.flops) (hb3 : 0 ≤ b.flops) :
    (Matrix.add a b = .ok m → a.flops ≤ m.flops ∧ b.flops ≤ m.flops)
    ∧ (1 ≤ b.ncol → Matrix.mul a b = .ok m → a.flops ≤ m.flops ∧ b.flops ≤ m.flops) := by
  constructor
  · intro h
    unfold Matrix.add at h
    split at h
    · exact absurd h (by simp)
    · rw [Except.ok.injEq] at h
      subst h
      have hnn : 0 ≤ calc_mat_add_flops a b := mul_nonneg ha1 hb2
      constructor <;> simp <;> linarith
  · intro hc h
    unfold Matrix.mul at h
    split at h
    · exact absurd h (by simp)
    · rw [Except.ok.injEq] at h
      subst h
      have hnn : 0 ≤ calc_mat_mult_flops a b := by
        have : (0 : Int) ≤ 2 * b.ncol - 1 := by linarith
        exact mul_nonneg (mul_nonneg ha1 ha2) this
      constructor <;> simp <;> linarith

/-- Witness for the amended C7 at `A(2,10) + B(2,10)` and
`A(2,5) * B(5,10)`. -/
theorem cost_monotone_amended_witness :
    ((⟨2, 10, 0⟩ : Matrix).flops ≤ (⟨2, 10, 20⟩ : Matrix).flops
      ∧ (⟨2, 10, 0⟩ : Matrix).flops ≤ (⟨2, 10, 20⟩ : Matrix).flops)
    ∧ ((⟨2, 5, 0⟩ : Matrix).flops ≤ (⟨2, 10, 190⟩ : Matrix).flops
      ∧ (⟨5, 10, 0⟩ : Matrix).flops ≤ (⟨2, 10, 190⟩ : Matrix).flops) := by
  have h1 := cost_monotone_amended ⟨2, 10, 0⟩ ⟨2, 10, 0⟩ ⟨2, 10, 20⟩
    (by decide) (by decide) (by decide) (by decide) (by decide)
  have h2 := cost_monotone_amended ⟨2, 5, 0⟩ ⟨5, 10, 0⟩ ⟨2, 10, 190⟩
    (by decide) (by decide) (by decide) (by decide) (by decide)
  exact ⟨h1.1 (by decide), h2.2 (by decide) (by decide)⟩

/-! ## Claims about the optimizer: small inputs and rendering -/

/-- C8: the optimizer applied to an empty chain (with the default empty
name list) returns `("", 0)` and raises no error. -/
theorem empty_chain : calc_optimal_mult_order [] [] = .ok ("", 0) := rfl

/-- C9: the optimizer applied to a single matrix returns cost `0` and, as
the expression, the supplied name, or the synthesized label `"M1"` when no
names were supplied. -/
theorem single_matrix (m : Matrix) (nm : String) :
    calc_optimal_mult_order [m] [nm] = .ok (nm, 0)
    ∧ calc_optimal_mult_order [m] [] = .ok ("M1", 0) := by
  constructor
  · simp [calc_optimal_mult_order, runDP, order_to_string, Compat, adjacentPairsOk, initTables]
  · simp [calc_optimal_mult_order, runDP, order_to_string, Compat, adjacentPairsOk, initTables]
    rfl

/-- C3: on the chain `A(40,20), B(20,30), C(30,10), D(10,30)` with names
`A,B,C,D` the optimizer returns exactly `("((A * (B * C)) * D)", 50200)`;
and in general the renderer produces, at every non-leaf window, the two
operand renderings joined by the literal `" * "` token inside a pair of
parentheses (full parenthesization). -/
theorem abcd_order :
    calc_optimal_mult_order chainABCD ["A", "B", "C", "D"] = .ok ("((A * (B * C)) * D)", 50200)
    ∧ ∀ (idx : Nat → Nat → Nat) (names : List String) (fuel i j : Nat), i ≠ j →
        order_to_string idx names (fuel + 1) i j =
          "(" ++ order_to_string idx names fuel i (idx i j) ++ " * " ++
            order_to_string idx names fuel (idx i j + 1) j ++ ")" := by
  refine ⟨by decide, ?_⟩
  intro idx names fuel i j hij
  simp [order_to_string, hij]

/-- Witness for C3: the concrete four-matrix result together with one
concrete instance of the rendering shape. -/
theorem abcd_order_witness :
    calc_optimal_mult_order chainABCD ["A", "B", "C", "D"] = .ok ("((A * (B * C)) * D)", 50200)
    ∧ order_to_string (fun _ _ => 0) ["A", "B"] 1 0 1 =
        "(" ++ order_to_string (fun _ _ => 0) ["A", "B"] 0 0 0 ++ " * " ++
          order_to_string (fun _ _ => 0) ["A", "B"] 0 1 1 ++ ")" :=
  ⟨abcd_order.1, abcd_order.2 (fun _ _ => 0) ["A", "B"] 0 0 1 (by decide)⟩

end MatrixChain

namespace MatrixChain

theorem flatMap_congr_mem {α β : Type} {l : List α} {f g : α → List β}
    (h : ∀ a ∈ l, f a = g a) : l.flatMap f = l.flatMap g := by
  induction l with
  | nil => rfl
  | cons a l ih =>
    simp only [List.flatMap_cons]
    rw [h a (by simp), ih fun x hx => h x (by simp [hx])]

theorem allTreesF_node_unfold (d i j : Nat) (h : ¬ j ≤ i) :
    allTreesF (d + 1) i j =
      (List.range' i (j - i)).flatMap fun k =>
        (allTreesF d i k).flatMap fun l =>
          (allTreesF d (k + 1) j).map fun r => PTree.node l r := by
  show (if j ≤ i then [PTree.leaf i]
    else (List.range' i (j - i)).flatMap fun k =>
      (allTreesF d i k).flatMap fun l =>
        (allTreesF d (k + 1) j).map fun r => PTree.node l r) = _
  rw [if_neg h]

theorem allTreesF_succ (d : Nat) :
    ∀ i j, j - i ≤ d → allTreesF (d + 1) i j = allTreesF d i j := by
  induction d with
  | zero =>
    intro i j h
    have hj : j ≤ i := by omega
    simp [allTreesF, hj]
  | succ e ih =>
    intro i j h
    by_cases hj : j ≤ i
    · simp [allTreesF, hj]
    · rw [allTreesF_node_unfold (e + 1) i j hj, allTreesF_node_unfold e i j hj]
      refine flatMap_congr_mem ?_
      intro k hk
      rw [List.mem_range'_1] at hk
      rw [ih i k (by omega), ih (k + 1) j (by omega)]

theorem allTreesF_fuel : ∀ (d i j : Nat), j - i ≤ d → allTreesF d i j = allTrees i j := by
  intro d
  induction d with
  | zero =>
    intro i j h
    have h0 : j - i = 0 := by omega
    unfold allTrees
    rw [h0]
  | succ e ih =>
    intro i j h
    rcases Nat.lt_or_ge e (j - i) with hlt | hge
    · have : j - i = e + 1 := by omega
      unfold allTrees
      rw [this]
    · rw [allTreesF_succ e i j hge, ih i j hge]

theorem allTrees_self (i : Nat) : allTrees i i = [PTree.leaf i] := by
  unfold allTrees
  rw [Nat.sub_self]
  rfl

theorem mem_allTrees_iff (i j : Nat) (hij : i < j) (t : PTree) :
    t ∈ allTrees i j ↔ ∃ k, i ≤ k ∧ k < j ∧
      ∃ l ∈ allTrees i k, ∃ r ∈ allTrees (k + 1) j, t = PTree.node l r := by
  obtain ⟨e, he⟩ : ∃ e, j - i = e + 1 := ⟨j - i - 1, by omega⟩
  constructor
  · intro ht
    have ht' : t ∈ allTreesF (e + 1) i j := by rw [← he]; exact ht
    rw [allTreesF_node_unfold e i j (by omega)] at ht'
    simp only [List.mem_flatMap, List.mem_map, List.mem_range'_1] at ht'
    obtain ⟨k, ⟨hik, hkj⟩, l, hl, r, hr, rfl⟩ := ht'
    rw [allTreesF_fuel e i k (by omega)] at hl
    rw [allTreesF_fuel e (k + 1) j (by omega)] at hr
    exact ⟨k, hik, by omega, l, hl, r, hr, rfl⟩
  · rintro ⟨k, hik, hkj, l, hl, r, hr, rfl⟩
    have ht' : PTree.node l r ∈ allTreesF (e + 1) i j := by
      rw [allTreesF_node_unfold e i j (by omega)]
      simp only [List.mem_flatMap, List.mem_map, List.mem_range'_1]
      refine ⟨k, ⟨hik, by omega⟩, l, ?_, r, ?_, rfl⟩
      · rw [allTreesF_fuel e i k (by omega)]; exact hl
      · rw [allTreesF_fuel e (k + 1) j (by omega)]; exact hr
    show PTree.node l r ∈ allTreesF (j - i) i j
    rw [he]
    exact ht'

theorem mem_allTrees_lo_hi (n : Nat) : ∀ i j, j - i ≤ n → i ≤ j →
    ∀ t ∈ allTrees i j, t.lo = i ∧ t.hi = j := by
  induction n with
  | zero =>
    intro i j h hij t ht
    have : j = i := by omega
    subst this
    rw [allTrees_self] at ht
    simp at ht
    subst ht
    exact ⟨rfl, rfl⟩
  | succ e ih =>
    intro i j h hij t ht
    rcases Nat.eq_or_lt_of_le hij with rfl | hlt
    · rw [allTrees_self] at ht
      simp at ht
      subst ht
      exact ⟨rfl, rfl⟩
    · rw [mem_allTrees_iff i j hlt] at ht
      obtain ⟨k, hik, hkj, l, hl, r, hr, rfl⟩ := ht
      have ihl := ih i k (by omega) hik l hl
      have ihr := ih (k + 1) j (by omega) (by omega) r hr
      exact ⟨by simp [PTree.lo, ihl.1], by simp [PTree.hi, ihr.2]⟩

end MatrixChain

namespace MatrixChain

theorem compat_index : ∀ (mats : List Matrix), Compat mats →
    ∀ k, k + 1 < mats.length → (matAt mats k).ncol = (matAt mats (k + 1)).nrow := by
  intro mats
  induction mats with
  | nil => intro _ k hk; simp at hk
  | cons m1 rest ih =>
    intro hc k hk
    cases rest with
    | nil => simp at hk
    | cons m2 rest2 =>
      unfold Compat adjacentPairsOk at hc
      rw [Bool.and_eq_true, beq_iff_eq] at hc
      cases k with
      | zero => simpa [matAt] using hc.1
      | succ k2 =>
        have hrec := ih hc.2 k2 (by simpa using hk)
        simpa [matAt] using hrec

theorem evalTree_ok (mats : List Matrix) (hc : Compat mats) (n : Nat) :
    ∀ i j, j - i ≤ n → i ≤ j → j < mats.length →
      ∀ t ∈ allTrees i j,
        evalTree mats t = .ok ⟨(matAt mats i).nrow, (matAt mats j).ncol, treeFlops mats t⟩ := by
  induction n with
  | zero =>
    intro i j h hij hjn t ht
    have : j = i := by omega
    subst this
    rw [allTrees_self] at ht
    simp at ht
    subst ht
    rfl
  | succ e ih =>
    intro i j h hij hjn t ht
    rcases Nat.eq_or_lt_of_le hij with rfl | hlt
    · rw [allTrees_self] at ht
      simp at ht
      subst ht
      rfl
    · rw [mem_allTrees_iff i j hlt] at ht
      obtain ⟨k, hik, hkj, l, hl, r, hr, rfl⟩ := ht
      have ihl := ih i k (by omega) hik (by omega) l hl
      have ihr := ih (k + 1) j (by omega) (by omega) hjn r hr
      have hlo := mem_allTrees_lo_hi (k - i) i k (by omega) hik l hl
      have rhi := mem_allTrees_lo_hi (j - (k + 1)) (k + 1) j (by omega) (by omega) r hr
      have hinner : (matAt mats k).ncol = (matAt mats (k + 1)).nrow :=
        compat_index mats hc k (by omega)
      show (do
        let a ← evalTree mats l
        let b ← evalTree mats r
        a.mul b) = _
      rw [ihl, ihr]
      show Matrix.mul _ _ = _
      rw [Matrix.mul, if_neg (by simp [hinner])]
      simp only [treeFlops, calc_mat_mult_flops, splitFlops, hlo.1, hlo.2, rhi.2]

/-- C10: every full parenthesization of a non-empty adjacent-compatible
chain evaluates under `Multiply` without a dimension failure, yielding a
result of shape (rows of the first matrix, cols of the last matrix) whose
flop counter is the grouping's total multiplication flops. -/
theorem all_parenthesizations_eval (mats : List Matrix) (hne : mats ≠ []) (hc : Compat mats) :
    ∀ t ∈ allTrees 0 (mats.length - 1), ∃ m, evalTree mats t = .ok m
      ∧ m.nrow = (matAt mats 0).nrow ∧ m.ncol = (matAt mats (mats.length - 1)).ncol
      ∧ m.flops = treeFlops mats t := by
  intro t ht
  have hlen : 0 < mats.length := List.length_pos.mpr hne
  exact ⟨_, evalTree_ok mats hc (mats.length - 1) 0 (mats.length - 1)
    (by omega) (by omega) (by omega) t ht, rfl, rfl, rfl⟩

/-- The two-matrix chain `(2,5), (5,3)` used as a witness input. -/
def chain25 : List Matrix := [⟨2, 5, 0⟩, ⟨5, 3, 0⟩]

/-- Witness for C10: the two-matrix chain `(2,5), (5,3)` and its single
parenthesization. -/
theorem all_parenthesizations_eval_witness :
    ∃ m, evalTree chain25 (.node (.leaf 0) (.leaf 1)) = .ok m
      ∧ m.nrow = (matAt chain25 0).nrow
      ∧ m.ncol = (matAt chain25 (chain25.length - 1)).ncol
      ∧ m.flops = treeFlops chain25 (.node (.leaf 0) (.leaf 1)) :=
  all_parenthesizations_eval chain25 (by decide) (by decide)
    (.node (.leaf 0) (.leaf 1)) (by decide)

end MatrixChain

namespace MatrixChain

def pairFold (c : Nat → Int) (ks : List Nat) (acc : Int × Nat) : Int × Nat :=
  ks.foldl (fun acc k => if c k < acc.1 then (c k, k) else acc) acc

theorem pairFold_cons (c : Nat → Int) (k : Nat) (ks : List Nat) (acc : Int × Nat) :
    pairFold c (k :: ks) acc = pairFold c ks (if c k < acc.1 then (c k, k) else acc) := rfl

theorem pairFold_congr (c c' : Nat → Int) : ∀ (ks : List Nat) (acc : Int × Nat),
    (∀ k ∈ ks, c k = c' k) → pairFold c ks acc = pairFold c' ks acc := by
  intro ks
  induction ks with
  | nil => intro acc _; rfl
  | cons k ks ih =>
    intro acc h
    rw [pairFold_cons, pairFold_cons, h k (by simp)]
    exact ih _ fun x hx => h x (by simp [hx])

theorem pairFold_fst (c : Nat → Int) : ∀ (ks : List Nat) (acc : Int × Nat),
    (pairFold c ks acc).1 = (ks.map c).foldl min acc.1 := by
  intro ks
  induction ks with
  | nil => intro acc; rfl
  | cons k ks ih =>
    intro acc
    rw [pairFold_cons, List.map_cons, List.foldl_cons, ih]
    congr 1
    rcases lt_or_ge (c k) acc.1 with h | h
    · rw [if_pos h]
      exact (min_eq_right (le_of_lt h)).symm
    · rw [if_neg (not_lt.mpr h)]
      exact (min_eq_left h).symm

theorem foldl_min_le : ∀ (l : List Int) (a : Int),
    l.foldl min a ≤ a ∧ ∀ x ∈ l, l.foldl min a ≤ x := by
  intro l
  induction l with
  | nil => intro a; exact ⟨le_refl a, by simp⟩
  | cons y l ih =>
    intro a
    have h := ih (min a y)
    constructor
    · exact le_trans h.1 (min_le_left a y)
    · intro x hx
      rcases List.mem_cons.mp hx with rfl | hx
      · exact le_trans h.1 (min_le_right a x)
      · exact h.2 x hx

theorem pairFold_shape (c : Nat → Int) : ∀ (ks : List Nat) (acc : Int × Nat),
    pairFold c ks acc = acc ∨ ∃ k ∈ ks, pairFold c ks acc = (c k, k) := by
  intro ks
  induction ks with
  | nil => intro acc; exact Or.inl rfl
  | cons k ks ih =>
    intro acc
    rcases lt_or_ge (c k) acc.1 with h | h
    · rw [pairFold_cons, if_pos h]
      rcases ih (c k, k) with h2 | ⟨k2, hk2, h2⟩
      · exact Or.inr ⟨k, by simp, h2⟩
      · exact Or.inr ⟨k2, by simp [hk2], h2⟩
    · rw [pairFold_cons, if_neg (not_lt.mpr h)]
      rcases ih acc with h2 | ⟨k2, hk2, h2⟩
      · exact Or.inl h2
      · exact Or.inr ⟨k2, by simp [hk2], h2⟩

theorem pairFold_concat (c : Nat → Int) (i e : Nat) (acc : Int × Nat) :
    pairFold c (List.range' i (e + 1)) acc =
      if c (i + e) < (pairFold c (List.range' i e) acc).1 then (c (i + e), i + e)
      else pairFold c (List.range' i e) acc := by
  unfold pairFold
  rw [List.range'_1_concat, List.foldl_append]
  rfl

theorem pairFold_first_argmin (c : Nat → Int) (i : Nat) : ∀ (m : Nat),
    ∀ k ∈ List.range' i m, k < (pairFold c (List.range' i m) (intMax, 0)).2 →
      (pairFold c (List.range' i m) (intMax, 0)).1 < c k := by
  intro m
  induction m with
  | zero => intro k hk; simp at hk
  | succ e ih =>
    intro k hk hlt
    rw [List.range'_1_concat, List.mem_append] at hk
    rw [pairFold_concat] at hlt ⊢
    set R := pairFold c (List.range' i e) (intMax, 0) with hR
    rcases lt_or_ge (c (i + e)) R.1 with hc | hc
    · rw [if_pos hc] at hlt ⊢
      have hlt' : k < i + e := hlt
      have hk' : k ∈ List.range' i e := by
        rcases hk with h | h
        · exact h
        · exfalso
          simp at h
          omega
      have hle : R.1 ≤ c k := by
        rw [hR, pairFold_fst]
        exact (foldl_min_le _ _).2 (c k) (List.mem_map_of_mem c hk')
      show c (i + e) < c k
      exact lt_of_lt_of_le hc hle
    · rw [if_neg (not_lt.mpr hc)] at hlt ⊢
      have hk' : k ∈ List.range' i e := by
        rcases hk with h | h
        · exact h
        · exfalso
          simp at h
          subst h
          rcases pairFold_shape c (List.range' i e) (intMax, 0) with hs | ⟨k2, hk2, hs⟩
          · rw [← hR] at hs
            rw [hs] at hlt
            simp at hlt
          · rw [← hR] at hs
            rw [hs] at hlt
            rw [List.mem_range'_1] at hk2
            have hlt2 : i + e < k2 := hlt
            omega
      exact ih k hk' hlt

end MatrixChain

namespace MatrixChain

/-- The value/argmin pair the inner `k` loop of the DP computes for one
window, as a recursion on window size (`d` is fuel, `≥ j - i` suffices):
start from `(INT_MAX, 0)` (the freshly reset cell and the table's
zero-initialized `min_index` cell) and fold the strict-improvement step
over `k = i, …, j - 1`. -/
def bellF (mats : List Matrix) : Nat → Nat → Nat → Int × Nat
  | 0, _, _ => (0, 0)
  | d + 1, i, j =>
    if j ≤ i then (0, 0)
    else
      pairFold
        (fun k => (bellF mats d i k).1 + (bellF mats d (k + 1) j).1 + splitFlops mats i k j)
        (List.range' i (j - i)) (intMax, 0)

/-- The DP recurrence value of the window `[i, j]`. -/
def bell (mats : List Matrix) (i j : Nat) : Int × Nat := bellF mats (j - i) i j

theorem bellF_node_unfold (mats : List Matrix) (d i j : Nat) (h : ¬ j ≤ i) :
    bellF mats (d + 1) i j =
      pairFold
        (fun k => (bellF mats d i k).1 + (bellF mats d (k + 1) j).1 + splitFlops mats i k j)
        (List.range' i (j - i)) (intMax, 0) := by
  show (if j ≤ i then (0, 0)
    else pairFold
      (fun k => (bellF mats d i k).1 + (bellF mats d (k + 1) j).1 + splitFlops mats i k j)
      (List.range' i (j - i)) (intMax, 0)) = _
  rw [if_neg h]

theorem bellF_succ (mats : List Matrix) (d : Nat) :
    ∀ i j, j - i ≤ d → bellF mats (d + 1) i j = bellF mats d i j := by
  induction d with
  | zero =>
    intro i j h
    have hj : j ≤ i := by omega
    simp [bellF, hj]
  | succ e ih =>
    intro i j h
    by_cases hj : j ≤ i
    · simp [bellF, hj]
    · rw [bellF_node_unfold mats (e + 1) i j hj, bellF_node_unfold mats e i j hj]
      refine pairFold_congr _ _ _ _ ?_
      intro k hk
      rw [List.mem_range'_1] at hk
      rw [ih i k (by omega), ih (k + 1) j (by omega)]

theorem bellF_fuel : ∀ (d : Nat) (mats : List Matrix) (i j : Nat), j - i ≤ d →
    bellF mats d i j = bell mats i j := by
  intro d
  induction d with
  | zero =>
    intro mats i j h
    have h0 : j - i = 0 := by omega
    unfold bell
    rw [h0]
  | succ e ih =>
    intro mats i j h
    rcases Nat.lt_or_ge e (j - i) with hlt | hge
    · have : j - i = e + 1 := by omega
      unfold bell
      rw [this]
    · rw [bellF_succ mats e i j hge, ih mats i j hge]

theorem bell_self (mats : List Matrix) (i : Nat) : bell mats i i = (0, 0) := by
  unfold bell
  rw [Nat.sub_self]
  rfl

/-- The DP recurrence written with canonical fuel on the sub-windows: for
`i < j`, `bell i j` is the strict-improvement fold over all splits. -/
theorem bell_node_unfold (mats : List Matrix) (i j : Nat) (hij : i < j) :
    bell mats i j =
      pairFold
        (fun k => (bell mats i k).1 + (bell mats (k + 1) j).1 + splitFlops mats i k j)
        (List.range' i (j - i)) (intMax, 0) := by
  obtain ⟨e, he⟩ : ∃ e, j - i = e + 1 := ⟨j - i - 1, by omega⟩
  have h1 : bell mats i j = bellF mats (e + 1) i j := by
    unfold bell
    rw [he]
  rw [h1, bellF_node_unfold mats e i j (by omega)]
  refine pairFold_congr _ _ _ _ ?_
  intro k hk
  rw [List.mem_range'_1] at hk
  rw [bellF_fuel e mats i k (by omega), bellF_fuel e mats (k + 1) j (by omega)]

end MatrixChain

namespace MatrixChain

/-- Core DP exactness: under the per-window no-overflow bound, the value
component of `bell` is the minimum parenthesization flop count of each
window (lower bound + attained), and for proper windows the argmin
component records a valid split realizing that value. -/
theorem bell_minimal (mats : List Matrix) (n : Nat)
    (hb : ∀ b, b < n → ∀ a, a ≤ b → ∃ t ∈ allTrees a b, treeFlops mats t < intMax) :
    ∀ d i j, j - i ≤ d → i ≤ j → j < n →
      (∀ t ∈ allTrees i j, (bell mats i j).1 ≤ treeFlops mats t)
      ∧ (∃ t ∈ allTrees i j, treeFlops mats t = (bell mats i j).1)
      ∧ (i < j → i ≤ (bell mats i j).2 ∧ (bell mats i j).2 < j ∧
          (bell mats i j).1 =
            (bell mats i (bell mats i j).2).1 + (bell mats ((bell mats i j).2 + 1) j).1
              + splitFlops mats i (bell mats i j).2 j) := by
  intro d
  induction d with
  | zero =>
    intro i j h hij hjn
    have heq : i = j := by omega
    subst heq
    rw [bell_self, allTrees_self]
    refine ⟨?_, ⟨.leaf i, by simp, rfl⟩, fun hc => absurd hc (lt_irrefl i)⟩
    intro t ht
    simp at ht
    subst ht
    exact le_refl _
  | succ e ih =>
    intro i j h hij hjn
    rcases Nat.eq_or_lt_of_le hij with rfl | hlt
    · rw [bell_self, allTrees_self]
      refine ⟨?_, ⟨.leaf i, by simp, rfl⟩, fun hc => absurd hc (lt_irrefl i)⟩
      intro t ht
      simp at ht
      subst ht
      exact le_refl _
    · have hunf := bell_node_unfold mats i j hlt
      set c : Nat → Int :=
        fun k => (bell mats i k).1 + (bell mats (k + 1) j).1 + splitFlops mats i k j
        with hcdef
      have hLB : ∀ t ∈ allTrees i j, (bell mats i j).1 ≤ treeFlops mats t := by
        intro t ht
        rw [mem_allTrees_iff i j hlt] at ht
        obtain ⟨k, hik, hkj, l, hl, r, hr, rfl⟩ := ht
        have ihl := ih i k (by omega) hik (by omega)
        have ihr := ih (k + 1) j (by omega) (by omega) hjn
        have hlo := mem_allTrees_lo_hi (k - i) i k (by omega) hik l hl
        have rhi := mem_allTrees_lo_hi (j - (k + 1)) (k + 1) j (by omega) (by omega) r hr
        have hflops : treeFlops mats (PTree.node l r)
            = treeFlops mats l + treeFlops mats r + splitFlops mats i k j := by
          simp [treeFlops, hlo.1, hlo.2, rhi.2]
        have hbl := ihl.1 l hl
        have hbr := ihr.1 r hr
        have h1 : c k ≤ treeFlops mats (PTree.node l r) := by
          rw [hflops, hcdef]
          simp only
          linarith
        have h2 : (bell mats i j).1 ≤ c k := by
          rw [hunf, pairFold_fst]
          refine (foldl_min_le _ _).2 (c k) ?_
          exact List.mem_map_of_mem c (by rw [List.mem_range'_1]; omega)
        linarith
      refine ⟨hLB, ?_⟩
      obtain ⟨t0, ht0, hf0⟩ := hb j hjn i (le_of_lt hlt)
      have hR1 : (bell mats i j).1 < intMax := lt_of_le_of_lt (hLB t0 ht0) hf0
      have hshape := pairFold_shape c (List.range' i (j - i)) (intMax, 0)
      rw [← hunf] at hshape
      rcases hshape with hs | ⟨ks, hks, hs⟩
      · rw [hs] at hR1
        exact absurd hR1 (by simp)
      · rw [List.mem_range'_1] at hks
        have hksj : ks < j := by omega
        have ihl := ih i ks (by omega) (by omega) (by omega)
        have ihr := ih (ks + 1) j (by omega) (by omega) hjn
        obtain ⟨l0, hl0, hfl0⟩ := ihl.2.1
        obtain ⟨r0, hr0, hfr0⟩ := ihr.2.1
        have hmem : PTree.node l0 r0 ∈ allTrees i j :=
          (mem_allTrees_iff i j hlt _).mpr ⟨ks, by omega, hksj, l0, hl0, r0, hr0, rfl⟩
        have hlo := mem_allTrees_lo_hi (ks - i) i ks (by omega) (by omega) l0 hl0
        have rhi := mem_allTrees_lo_hi (j - (ks + 1)) (ks + 1) j (by omega) (by omega) r0 hr0
        constructor
        · refine ⟨PTree.node l0 r0, hmem, ?_⟩
          have hflops : treeFlops mats (PTree.node l0 r0)
              = treeFlops mats l0 + treeFlops mats r0 + splitFlops mats i ks j := by
            simp [treeFlops, hlo.1, hlo.2, rhi.2]
          rw [hflops, hfl0, hfr0, hs]
        · intro _
          rw [hs]
          exact ⟨by omega, hksj, rfl⟩

/-- First-argmin property of the DP recurrence: every split strictly to
the left of the recorded one has strictly larger candidate cost. -/
theorem bell_first_argmin (mats : List Matrix) (i j : Nat) (hij : i < j) :
    ∀ k, i ≤ k → k < j → k < (bell mats i j).2 →
      (bell mats i j).1 <
        (bell mats i k).1 + (bell mats (k + 1) j).1 + splitFlops mats i k j := by
  intro k h1 h2 h3
  have hunf := bell_node_unfold mats i j hij
  rw [hunf] at h3 ⊢
  exact pairFold_first_argmin _ i (j - i) k (by rw [List.mem_range'_1]; omega) h3

end MatrixChain

namespace MatrixChain

/-- The inner `k` loop leaves every cell except `(i, j)` untouched and
drives cell `(i, j)` through exactly the strict-improvement fold
`pairFold`, reading sub-window values from the untouched part of the
table. -/
theorem kLoop_rel (mats : List Matrix) (i j : Nat) (t0 : Tables) :
    ∀ (ks : List Nat), (∀ k ∈ ks, i ≤ k ∧ k < j) → ∀ (t : Tables) (acc : Int × Nat),
      (∀ a b, ¬(a = i ∧ b = j) → t.min_cost a b = t0.min_cost a b) →
      (∀ a b, ¬(a = i ∧ b = j) → t.min_index a b = t0.min_index a b) →
      t.min_cost i j = acc.1 → t.min_index i j = acc.2 →
      (∀ a b, ¬(a = i ∧ b = j) →
          (ks.foldl (kStep mats i j) t).min_cost a b = t0.min_cost a b
          ∧ (ks.foldl (kStep mats i j) t).min_index a b = t0.min_index a b)
      ∧ (ks.foldl (kStep mats i j) t).min_cost i j
          = (pairFold
              (fun k => t0.min_cost i k + t0.min_cost (k + 1) j + splitFlops mats i k j)
              ks acc).1
      ∧ (ks.foldl (kStep mats i j) t).min_index i j
          = (pairFold
              (fun k => t0.min_cost i k + t0.min_cost (k + 1) j + splitFlops mats i k j)
              ks acc).2 := by
  intro ks
  induction ks with
  | nil =>
    intro _ t acc hco hio hci hii
    exact ⟨fun a b hab => ⟨hco a b hab, hio a b hab⟩, hci, hii⟩
  | cons k0 ks ih =>
    intro hks t acc hco hio hci hii
    have hk0 := hks k0 (by simp)
    have hr1 : t.min_cost i k0 = t0.min_cost i k0 := by
      refine hco i k0 ?_
      intro hh
      omega
    have hr2 : t.min_cost (k0 + 1) j = t0.min_cost (k0 + 1) j := by
      refine hco (k0 + 1) j ?_
      intro hh
      omega
    simp only [List.foldl_cons, pairFold_cons]
    by_cases hcond :
        t0.min_cost i k0 + t0.min_cost (k0 + 1) j + splitFlops mats i k0 j < acc.1
    · have hkstep : kStep mats i j t k0 =
          ⟨upd2 t.min_cost i j
              (t0.min_cost i k0 + t0.min_cost (k0 + 1) j + splitFlops mats i k0 j),
            upd2 t.min_index i j k0⟩ := by
        simp only [kStep]
        rw [hr1, hr2, hci, if_pos hcond]
      rw [hkstep, if_pos hcond]
      refine ih (fun k hk => hks k (by simp [hk])) _ _ ?_ ?_ ?_ ?_
      · intro a b hab
        show upd2 t.min_cost i j _ a b = _
        unfold upd2
        rw [if_neg hab]
        exact hco a b hab
      · intro a b hab
        show upd2 t.min_index i j _ a b = _
        unfold upd2
        rw [if_neg hab]
        exact hio a b hab
      · show upd2 t.min_cost i j _ i j = _
        unfold upd2
        rw [if_pos ⟨rfl, rfl⟩]
      · show upd2 t.min_index i j _ i j = _
        unfold upd2
        rw [if_pos ⟨rfl, rfl⟩]
    · have hkstep : kStep mats i j t k0 = t := by
        simp only [kStep]
        rw [hr1, hr2, hci, if_neg hcond]
      rw [hkstep, if_neg hcond]
      exact ih (fun k hk => hks k (by simp [hk])) t acc hco hio hci hii

/-- One middle-loop iteration: all cells but `(i, j)` (with
`j = i + L - 1`) keep their value, and `(i, j)` receives the
strict-improvement fold started at `(INT_MAX, old min_index)`. -/
theorem ijStep_spec (mats : List Matrix) (L i j : Nat) (hj : j = i + L - 1) (hij : i < j)
    (t : Tables) :
    (∀ a b, ¬(a = i ∧ b = j) →
        (ijStep mats L t i).min_cost a b = t.min_cost a b
        ∧ (ijStep mats L t i).min_index a b = t.min_index a b)
    ∧ (ijStep mats L t i).min_cost i j
        = (pairFold
            (fun k => t.min_cost i k + t.min_cost (k + 1) j + splitFlops mats i k j)
            (List.range' i (j - i)) (intMax, t.min_index i j)).1
    ∧ (ijStep mats L t i).min_index i j
        = (pairFold
            (fun k => t.min_cost i k + t.min_cost (k + 1) j + splitFlops mats i k j)
            (List.range' i (j - i)) (intMax, t.min_index i j)).2 := by
  have hrepr : ijStep mats L t i =
      (List.range' i (j - i)).foldl (kStep mats i j)
        ⟨upd2 t.min_cost i j intMax, t.min_index⟩ := by
    simp only [ijStep]
    rw [← hj]
  rw [hrepr]
  refine kLoop_rel mats i j t (List.range' i (j - i)) ?_ _ _ ?_ ?_ ?_ ?_
  · intro k hk
    rw [List.mem_range'_1] at hk
    omega
  · intro a b hab
    show upd2 t.min_cost i j intMax a b = _
    unfold upd2
    rw [if_neg hab]
  · intro a b hab
    rfl
  · show upd2 t.min_cost i j intMax i j = _
    unfold upd2
    rw [if_pos ⟨rfl, rfl⟩]
  · rfl

end MatrixChain

namespace MatrixChain

/-- The tables agree with the DP recurrence on every already-processed
window (described by `P`) and are still zero-initialized everywhere
else. -/
def TablesMatch (mats : List Matrix) (n : Nat) (P : Nat → Nat → Prop) (t : Tables) : Prop :=
  (∀ a b, a ≤ b → b < n → P a b →
      t.min_cost a b = (bell mats a b).1 ∧ t.min_index a b = (bell mats a b).2)
  ∧ ∀ a b, ¬(a ≤ b ∧ b < n ∧ P a b) → t.min_cost a b = 0 ∧ t.min_index a b = 0

theorem TablesMatch_mono (mats : List Matrix) (n : Nat) (P Q : Nat → Nat → Prop)
    (h : ∀ a b, a ≤ b → b < n → (Q a b ↔ P a b)) (t : Tables) :
    TablesMatch mats n P t → TablesMatch mats n Q t := by
  intro ht
  constructor
  · intro a b h1 h2 h3
    exact ht.1 a b h1 h2 ((h a b h1 h2).mp h3)
  · intro a b h1
    refine ht.2 a b ?_
    intro ⟨g1, g2, g3⟩
    exact h1 ⟨g1, g2, (h a b g1 g2).mpr g3⟩

/-- One `ijStep` extends the processed region by the window
`[i0, i0 + L - 1]`, writing exactly the recurrence value there. -/
theorem ijStep_preserves (mats : List Matrix) (n L i0 : Nat) (hn : n = mats.length)
    (hL : 2 ≤ L) (hi0 : i0 + L ≤ n) (t : Tables)
    (ht : TablesMatch mats n (fun a b => b < a + (L - 1) ∨ (b + 1 = a + L ∧ a < i0)) t) :
    TablesMatch mats n (fun a b => b < a + (L - 1) ∨ (b + 1 = a + L ∧ a < i0 + 1))
      (ijStep mats L t i0) := by
  set j0 := i0 + L - 1 with hj0
  have hij : i0 < j0 := by omega
  have hjn : j0 < n := by omega
  have hspec := ijStep_spec mats L i0 j0 hj0 hij t
  have hidx0 : t.min_index i0 j0 = 0 := by
    refine (ht.2 i0 j0 ?_).2
    intro ⟨g1, g2, g3⟩
    rcases g3 with g3 | ⟨g3, g4⟩
    · omega
    · omega
  have hcell : (ijStep mats L t i0).min_cost i0 j0 = (bell mats i0 j0).1
      ∧ (ijStep mats L t i0).min_index i0 j0 = (bell mats i0 j0).2 := by
    have hcong : pairFold
        (fun k => t.min_cost i0 k + t.min_cost (k + 1) j0 + splitFlops mats i0 k j0)
        (List.range' i0 (j0 - i0)) (intMax, t.min_index i0 j0)
        = pairFold
          (fun k => (bell mats i0 k).1 + (bell mats (k + 1) j0).1 + splitFlops mats i0 k j0)
          (List.range' i0 (j0 - i0)) (intMax, 0) := by
      rw [hidx0]
      refine pairFold_congr _ _ _ _ ?_
      intro k hk
      rw [List.mem_range'_1] at hk
      have hc1 := ht.1 i0 k hk.1 (by omega) (by omega)
      have hc2 := ht.1 (k + 1) j0 (by omega) hjn (by omega)
      rw [hc1.1, hc2.1]
    rw [hspec.2.1, hspec.2.2, hcong, ← bell_node_unfold mats i0 j0 hij]
    exact ⟨rfl, rfl⟩
  constructor
  · intro a b h1 h2 h3
    by_cases hab : a = i0 ∧ b = j0
    · obtain ⟨rfl, rfl⟩ := hab
      exact hcell
    · have hP : b < a + (L - 1) ∨ (b + 1 = a + L ∧ a < i0) := by
        rcases h3 with h3 | ⟨h3, h4⟩
        · exact Or.inl h3
        · right
          refine ⟨h3, ?_⟩
          rcases Nat.lt_or_ge a i0 with ha | ha
          · exact ha
          · exfalso
            have : a = i0 := by omega
            subst this
            exact hab ⟨rfl, by omega⟩
      have hoff := hspec.1 a b hab
      have horig := ht.1 a b h1 h2 hP
      exact ⟨hoff.1.trans horig.1, hoff.2.trans horig.2⟩
  · intro a b h1
    have hab : ¬(a = i0 ∧ b = j0) := by
      intro ⟨rfl, rfl⟩
      exact h1 ⟨by omega, hjn, Or.inr ⟨by omega, by omega⟩⟩
    have hoff := hspec.1 a b hab
    have horig : t.min_cost a b = 0 ∧ t.min_index a b = 0 := by
      refine ht.2 a b ?_
      intro ⟨g1, g2, g3⟩
      refine h1 ⟨g1, g2, ?_⟩
      rcases g3 with g3 | ⟨g3, g4⟩
      · exact Or.inl g3
      · exact Or.inr ⟨g3, by omega⟩
    exact ⟨hoff.1.trans horig.1, hoff.2.trans horig.2⟩

/-- The middle `i` loop processes the length-`L` windows left to right. -/
theorem iLoop_spec (mats : List Matrix) (n L : Nat) (hn : n = mats.length) (hL : 2 ≤ L) :
    ∀ (m i0 : Nat) (t : Tables), i0 + m + L ≤ n + 1 →
      TablesMatch mats n (fun a b => b < a + (L - 1) ∨ (b + 1 = a + L ∧ a < i0)) t →
      TablesMatch mats n (fun a b => b < a + (L - 1) ∨ (b + 1 = a + L ∧ a < i0 + m))
        ((List.range' i0 m).foldl (ijStep mats L) t) := by
  intro m
  induction m with
  | zero =>
    intro i0 t hbound ht
    exact ht
  | succ m ih =>
    intro i0 t hbound ht
    rw [List.range'_succ, List.foldl_cons]
    have hstep := ijStep_preserves mats n L i0 hn hL (by omega) t ht
    have hrec := ih (i0 + 1) (ijStep mats L t i0) (by omega) hstep
    refine TablesMatch_mono mats n _ _ ?_ _ hrec
    intro a b h1 h2
    omega

/-- The outer `length` loop processes lengths `L0, …, L0 + m - 1`. -/
theorem lenLoop_spec (mats : List Matrix) (n : Nat) (hn : n = mats.length) :
    ∀ (m L0 : Nat) (t : Tables), 2 ≤ L0 → L0 + m ≤ n + 1 →
      TablesMatch mats n (fun a b => b < a + (L0 - 1)) t →
      TablesMatch mats n (fun a b => b < a + (L0 - 1) + m)
        ((List.range' L0 m).foldl (lenStep mats) t) := by
  intro m
  induction m with
  | zero =>
    intro L0 t hL0 hbound ht
    exact TablesMatch_mono mats n _ _ (by intro a b h1 h2; omega) t ht
  | succ m ih =>
    intro L0 t hL0 hbound ht
    rw [List.range'_succ, List.foldl_cons]
    have hstep : TablesMatch mats n (fun a b => b < a + (L0 + 1 - 1)) (lenStep mats t L0) := by
      have hrepr : lenStep mats t L0
          = (List.range' 0 (n - L0 + 1)).foldl (ijStep mats L0) t := by
        simp only [lenStep]
        rw [← hn, List.range_eq_range']
      rw [hrepr]
      have hmid := iLoop_spec mats n L0 hn hL0 (n - L0 + 1) 0 t (by omega)
        (TablesMatch_mono mats n _ _ (by intro a b h1 h2; omega) t ht)
      refine TablesMatch_mono mats n _ _ ?_ _ hmid
      intro a b h1 h2
      omega
    have hrec := ih (L0 + 1) (lenStep mats t L0) (by omega) (by omega) hstep
    refine TablesMatch_mono mats n _ _ ?_ _ hrec
    intro a b h1 h2
    omega

/-- The filled tables coincide with the DP recurrence on every window. -/
theorem runDP_eq_bell (mats : List Matrix) (hne : mats ≠ []) :
    ∀ a b, a ≤ b → b < mats.length →
      (runDP mats).min_cost a b = (bell mats a b).1
      ∧ (runDP mats).min_index a b = (bell mats a b).2 := by
  have hn : 0 < mats.length := List.length_pos.mpr hne
  have hinit : TablesMatch mats mats.length (fun a b => b < a + (2 - 1)) initTables := by
    constructor
    · intro a b h1 h2 h3
      have : a = b := by omega
      subst this
      rw [bell_self]
      exact ⟨rfl, rfl⟩
    · intro a b h1
      exact ⟨rfl, rfl⟩
  have hfinal := lenLoop_spec mats mats.length rfl (mats.length - 1) 2 initTables
    (le_refl 2) (by omega) hinit
  intro a b h1 h2
  exact hfinal.1 a b h1 h2 (by omega)

end MatrixChain

namespace MatrixChain

/-- The DP value of a window is a lower bound for every single-split
candidate. -/
theorem bell_le_candidate (mats : List Matrix) (i j : Nat) (hij : i < j) :
    ∀ k, i ≤ k → k < j →
      (bell mats i j).1 ≤ (bell mats i k).1 + (bell mats (k + 1) j).1 + splitFlops mats i k j := by
  intro k h1 h2
  rw [bell_node_unfold mats i j hij, pairFold_fst]
  exact (foldl_min_le _ _).2 _
    (List.mem_map_of_mem _ (by rw [List.mem_range'_1]; omega))

/-- On a non-empty compatible chain (with the default empty name list) the
optimizer succeeds and returns the rendered `min_index` tree together with
`min_cost[0][n-1]`. -/
theorem calc_ok (mats : List Matrix) (hne : mats ≠ []) (hc : Compat mats) :
    calc_optimal_mult_order mats [] =
      .ok (order_to_string (runDP mats).min_index [] mats.length 0 (mats.length - 1),
        (runDP mats).min_cost 0 (mats.length - 1)) := by
  have hn : 0 < mats.length := List.length_pos.mpr hne
  have h1 : ¬(([] : List String).length ≠ 0 ∧ ([] : List String).length ≠ mats.length) := by
    simp
  have h2 : ¬(mats.length = 0) := by omega
  have h3 : ¬¬ Compat mats := not_not_intro hc
  simp only [calc_optimal_mult_order, if_neg h1, if_neg h2, if_neg h3]

/-- The diagonal of the filled cost table is zero. -/
theorem runDP_diag (mats : List Matrix) (hne : mats ≠ []) :
    ∀ a, a < mats.length → (runDP mats).min_cost a a = 0 := by
  intro a ha
  have h := (runDP_eq_bell mats hne a a (le_refl a) ha).1
  rw [h, bell_self]

/-- For every proper in-range window the recorded split index is valid and
the stored cost decomposes through it. -/
theorem runDP_split_facts (mats : List Matrix) (hne : mats ≠ [])
    (hb : ∀ b, b < mats.length → ∀ a, a ≤ b → ∃ t ∈ allTrees a b, treeFlops mats t < intMax) :
    ∀ i j, i < j → j < mats.length →
      i ≤ (runDP mats).min_index i j ∧ (runDP mats).min_index i j < j
      ∧ (runDP mats).min_cost i j
          = (runDP mats).min_cost i ((runDP mats).min_index i j)
            + (runDP mats).min_cost ((runDP mats).min_index i j + 1) j
            + splitFlops mats i ((runDP mats).min_index i j) j := by
  intro i j hij hjn
  obtain ⟨hcij, hiij⟩ := runDP_eq_bell mats hne i j (le_of_lt hij) hjn
  obtain ⟨hK1, hK2, hKdec⟩ :=
    (bell_minimal mats mats.length hb (j - i) i j (le_refl _) (le_of_lt hij) hjn).2.2 hij
  rw [hiij]
  obtain ⟨hciK, _⟩ := runDP_eq_bell mats hne i (bell mats i j).2 hK1 (by omega)
  obtain ⟨hcKj, _⟩ := runDP_eq_bell mats hne ((bell mats i j).2 + 1) j (by omega) hjn
  refine ⟨hK1, hK2, ?_⟩
  rw [hcij, hciK, hcKj]
  exact hKdec

/-- Rendering/extraction correspondence: whenever the `min_index` table
records valid splits whose stored costs decompose accordingly,
`order_to_string` prints exactly the `renderTree` image of `splitTree`,
the extracted tree is a genuine parenthesization of the window, and its
total multiplication flops equal the stored window cost. -/
theorem render_split (mats : List Matrix) (idx : Nat → Nat → Nat) (cost : Nat → Nat → Int)
    (names : List String) (n : Nat)
    (hwf : ∀ a b, a < b → b < n → a ≤ idx a b ∧ idx a b < b)
    (hdec : ∀ a b, a < b → b < n →
        cost a b = cost a (idx a b) + cost (idx a b + 1) b + splitFlops mats a (idx a b) b)
    (hdiag : ∀ a, a < n → cost a a = 0) :
    ∀ fuel i j, i ≤ j → j < n → j - i < fuel →
      order_to_string idx names fuel i j = renderTree names (splitTree idx fuel i j)
      ∧ splitTree idx fuel i j ∈ allTrees i j
      ∧ treeFlops mats (splitTree idx fuel i j) = cost i j := by
  intro fuel
  induction fuel with
  | zero => intro i j h1 h2 h3; omega
  | succ fuel ih =>
    intro i j h1 h2 h3
    rcases Nat.eq_or_lt_of_le h1 with rfl | hlt
    · refine ⟨by simp [order_to_string, splitTree, renderTree], ?_, ?_⟩
      · simp [splitTree, allTrees_self]
      · simp only [splitTree, if_pos rfl, treeFlops]
        exact (hdiag _ h2).symm
    · have hk := hwf i j hlt h2
      have ihl := ih i (idx i j) (by omega) (by omega) (by omega)
      have ihr := ih (idx i j + 1) j (by omega) h2 (by omega)
      have hsplit : splitTree idx (fuel + 1) i j
          = PTree.node (splitTree idx fuel i (idx i j)) (splitTree idx fuel (idx i j + 1) j) := by
        simp [splitTree, Nat.ne_of_lt hlt]
      have horder : order_to_string idx names (fuel + 1) i j
          = "(" ++ order_to_string idx names fuel i (idx i j) ++ " * "
            ++ order_to_string idx names fuel (idx i j + 1) j ++ ")" := by
        simp [order_to_string, Nat.ne_of_lt hlt]
      refine ⟨?_, ?_, ?_⟩
      · rw [horder, hsplit, ihl.1, ihr.1]
        rfl
      · rw [hsplit]
        exact (mem_allTrees_iff i j hlt _).mpr
          ⟨idx i j, hk.1, hk.2, _, ihl.2.1, _, ihr.2.1, rfl⟩
      · rw [hsplit]
        have hlo := mem_allTrees_lo_hi (idx i j - i) i (idx i j) (by omega) (by omega)
          _ ihl.2.1
        have rhi := mem_allTrees_lo_hi (j - (idx i j + 1)) (idx i j + 1) j (by omega)
          (by omega) _ ihr.2.1
        have hfl : treeFlops mats
            (PTree.node (splitTree idx fuel i (idx i j)) (splitTree idx fuel (idx i j + 1) j))
            = treeFlops mats (splitTree idx fuel i (idx i j))
              + treeFlops mats (splitTree idx fuel (idx i j + 1) j)
              + splitFlops mats i (idx i j) j := by
          simp [treeFlops, hlo.1, hlo.2, rhi.2]
        rw [hfl, ihl.2.2, ihr.2.2, hdec i j hlt h2]

end MatrixChain

namespace MatrixChain

/-- C1: for every adjacent-compatible chain of `n ≥ 1` shapes (within the
`int` range expressed by the per-window bound against `INT_MAX`), the
integer cost returned by `calc_optimal_mult_order` equals the minimum,
over all full parenthesizations of the chain, of the total multiplication
flops, each multiplication of a `(r1,c1)` result by a `(c1,c2)` result
costing `r1*c1*(2*c2-1)`: the returned cost is a lower bound of every
grouping's flops and is attained by some grouping. -/
theorem optimal_cost_minimal (mats : List Matrix) (hne : mats ≠ []) (hc : Compat mats)
    (hb : ∀ b, b < mats.length → ∀ a, a ≤ b → ∃ t ∈ allTrees a b, treeFlops mats t < intMax) :
    ∃ s c, calc_optimal_mult_order mats [] = .ok (s, c)
      ∧ (∀ t ∈ allTrees 0 (mats.length - 1), c ≤ treeFlops mats t)
      ∧ ∃ t ∈ allTrees 0 (mats.length - 1), treeFlops mats t = c := by
  have hn : 0 < mats.length := List.length_pos.mpr hne
  have hmain := bell_minimal mats mats.length hb (mats.length - 1) 0 (mats.length - 1)
    (by omega) (Nat.zero_le _) (by omega)
  obtain ⟨hcost0, _⟩ := runDP_eq_bell mats hne 0 (mats.length - 1) (Nat.zero_le _) (by omega)
  refine ⟨_, _, calc_ok mats hne hc, ?_, ?_⟩
  · intro t ht
    rw [hcost0]
    exact hmain.1 t ht
  · obtain ⟨t, ht, hft⟩ := hmain.2.1
    exact ⟨t, ht, by rw [hcost0]; exact hft⟩

/-- Witness for C1 at the chain `A(40,20), B(20,30), C(30,10), D(10,30)`. -/
theorem optimal_cost_minimal_witness :
    ∃ s c, calc_optimal_mult_order chainABCD [] = .ok (s, c)
      ∧ (∀ t ∈ allTrees 0 (chainABCD.length - 1), c ≤ treeFlops chainABCD t)
      ∧ ∃ t ∈ allTrees 0 (chainABCD.length - 1), treeFlops chainABCD t = c :=
  optimal_cost_minimal chainABCD (by decide) (by decide) (by decide)

/-- C2: for every adjacent-compatible chain of `n ≥ 1` shapes (within the
`int` range), the expression returned by `calc_optimal_mult_order` is the
rendering of the split tree recorded in `min_index`, and evaluating that
tree with the cost model's `Multiply` on freshly constructed matrices
yields an accumulated flop count equal to the integer cost returned. -/
theorem expr_cost_consistent (mats : List Matrix) (hne : mats ≠ []) (hc : Compat mats)
    (hb : ∀ b, b < mats.length → ∀ a, a ≤ b → ∃ t ∈ allTrees a b, treeFlops mats t < intMax) :
    ∃ m, evalTree mats (splitTree (runDP mats).min_index mats.length 0 (mats.length - 1)) = .ok m
      ∧ calc_optimal_mult_order mats []
          = .ok (renderTree []
              (splitTree (runDP mats).min_index mats.length 0 (mats.length - 1)), m.flops) := by
  have hn : 0 < mats.length := List.length_pos.mpr hne
  obtain ⟨hord, hmem, hflops⟩ := render_split mats (runDP mats).min_index (runDP mats).min_cost
    [] mats.length
    (fun a b hab hbn => ⟨(runDP_split_facts mats hne hb a b hab hbn).1,
      (runDP_split_facts mats hne hb a b hab hbn).2.1⟩)
    (fun a b hab hbn => (runDP_split_facts mats hne hb a b hab hbn).2.2)
    (runDP_diag mats hne)
    mats.length 0 (mats.length - 1) (Nat.zero_le _) (by omega) (by omega)
  have heval := evalTree_ok mats hc (mats.length - 1) 0 (mats.length - 1)
    (by omega) (Nat.zero_le _) (by omega) _ hmem
  refine ⟨⟨(matAt mats 0).nrow, (matAt mats (mats.length - 1)).ncol,
    (runDP mats).min_cost 0 (mats.length - 1)⟩, ?_, ?_⟩
  · rw [heval, hflops]
  · rw [calc_ok mats hne hc, hord]

/-- Witness for C2 at the chain `A(40,20), B(20,30), C(30,10), D(10,30)`. -/
theorem expr_cost_consistent_witness :
    ∃ m, evalTree chainABCD
        (splitTree (runDP chainABCD).min_index chainABCD.length 0 (chainABCD.length - 1)) = .ok m
      ∧ calc_optimal_mult_order chainABCD []
          = .ok (renderTree []
              (splitTree (runDP chainABCD).min_index chainABCD.length 0 (chainABCD.length - 1)),
            m.flops) :=
  expr_cost_consistent chainABCD (by decide) (by decide) (by decide)

/-- C6: for every window `[i, j]` with `i < j` processed by the optimizer
(within the `int` range expressed by the bound against `INT_MAX`), the
recorded `min_index[i][j]` is a valid split achieving the minimum of
`min_cost[i][k] + min_cost[k+1][j] + rows(i)*cols(k)*(2*cols(j)-1)` over
`k ∈ [i, j)`, and every `k` to its left has a strictly different (hence
strictly larger) candidate cost: a later equal-cost split never replaces
the first minimizer. -/
theorem split_index_first_min (mats : List Matrix) (hne : mats ≠ [])
    (hb : ∀ b, b < mats.length → ∀ a, a ≤ b → ∃ t ∈ allTrees a b, treeFlops mats t < intMax)
    (i j : Nat) (hij : i < j) (hjn : j < mats.length) :
    i ≤ (runDP mats).min_index i j ∧ (runDP mats).min_index i j < j
    ∧ (runDP mats).min_cost i j
        = (runDP mats).min_cost i ((runDP mats).min_index i j)
          + (runDP mats).min_cost ((runDP mats).min_index i j + 1) j
          + splitFlops mats i ((runDP mats).min_index i j) j
    ∧ (∀ k, i ≤ k → k < j →
        (runDP mats).min_cost i j
          ≤ (runDP mats).min_cost i k + (runDP mats).min_cost (k + 1) j + splitFlops mats i k j)
    ∧ ∀ k, i ≤ k → k < (runDP mats).min_index i j →
        (runDP mats).min_cost i k + (runDP mats).min_cost (k + 1) j + splitFlops mats i k j
          ≠ (runDP mats).min_cost i j := by
  obtain ⟨h1, h2, h3⟩ := runDP_split_facts mats hne hb i j hij hjn
  obtain ⟨hcij, hiij⟩ := runDP_eq_bell mats hne i j (le_of_lt hij) hjn
  refine ⟨h1, h2, h3, ?_, ?_⟩
  · intro k hk1 hk2
    obtain ⟨hcik, _⟩ := runDP_eq_bell mats hne i k hk1 (by omega)
    obtain ⟨hckj, _⟩ := runDP_eq_bell mats hne (k + 1) j (by omega) hjn
    rw [hcij, hcik, hckj]
    exact bell_le_candidate mats i j hij k hk1 hk2
  · intro k hk1 hk2
    rw [hiij] at hk2
    have hk3 : k < j := by omega
    obtain ⟨hcik, _⟩ := runDP_eq_bell mats hne i k hk1 (by omega)
    obtain ⟨hckj, _⟩ := runDP_eq_bell mats hne (k + 1) j (by omega) hjn
    rw [hcij, hcik, hckj]
    have := bell_first_argmin mats i j hij k hk1 hk3 hk2
    omega

/-- Witness for C6 at the chain `A(40,20), B(20,30), C(30,10), D(10,30)`,
window `[0, 3]`. -/
theorem split_index_first_min_witness :
    0 ≤ (runDP chainABCD).min_index 0 3 ∧ (runDP chainABCD).min_index 0 3 < 3
    ∧ (runDP chainABCD).min_cost 0 3
        = (runDP chainABCD).min_cost 0 ((runDP chainABCD).min_index 0 3)
          + (runDP chainABCD).min_cost ((runDP chainABCD).min_index 0 3 + 1) 3
          + splitFlops chainABCD 0 ((runDP chainABCD).min_index 0 3) 3
    ∧ (∀ k, 0 ≤ k → k < 3 →
        (runDP chainABCD).min_cost 0 3
          ≤ (runDP chainABCD).min_cost 0 k + (runDP chainABCD).min_cost (k + 1) 3
            + splitFlops chainABCD 0 k 3)
    ∧ ∀ k, 0 ≤ k → k < (runDP chainABCD).min_index 0 3 →
        (runDP chainABCD).min_cost 0 k + (runDP chainABCD).min_cost (k + 1) 3
            + splitFlops chainABCD 0 k 3
          ≠ (runDP chainABCD).min_cost 0 3 :=
  split_index_first_min chainABCD (by decide) (by decide) 0 3 (by decide) (by decide)

end MatrixChain
